import Mathlib

/-!
A verification development for the `core` package of the fabrikate repository
(`src/core/component.go`).  The Go source is shallowly embedded: pure
functions become Lean functions, filesystem reads become lookups into an
explicit `FileSystem` value, subprocess execution becomes an explicit step
oracle, and the queue-driven `IterateComponentTree` loop becomes a
fuel-indexed recursion (the Go loop does not terminate on cyclic descriptor
layouts, so a run is represented as "terminates within `fuel` iterations").
-/

set_option maxHeartbeats 1000000

set_option maxRecDepth 8000

/-- Opaque JSON scalar values stored in a `ComponentConfig`'s `Config` map
(`map[string]interface{}` in Go).  The core never inspects these values, it
only moves them around, so a small value type suffices for the embedding. -/
inductive Json where
  | null
  | bool (b : Bool)
  | num (n : Int)
  | str (s : String)
deriving DecidableEq

mutual

/-- `ComponentConfig` from the Go source: a map of own settings plus a map
from child name to that child's pushed-down `ComponentConfig`.  Go maps are
modelled as association lists; `SubMap` is the (recursive) child map. -/
inductive ComponentConfig where
  | mk (Config : List (String × Json)) (Subcomponents : SubMap)

/-- Association map from child name to `ComponentConfig` (the Go
`map[string]ComponentConfig`). -/
inductive SubMap where
  | nil
  | cons (key : String) (val : ComponentConfig) (rest : SubMap)

end

/-- Own-settings map of a `ComponentConfig`. -/
def ComponentConfig.Config : ComponentConfig → List (String × Json)
  | .mk c _ => c

/-- Child-override map of a `ComponentConfig`. -/
def ComponentConfig.Subcomponents : ComponentConfig → SubMap
  | .mk _ s => s

/-- The `ComponentConfig` with no entries (Go zero value / freshly made empty
maps). -/
def emptyConfig : ComponentConfig := .mk [] .nil

/-- Lookup in the child map (Go map indexing, `none` when absent). -/
def SubMap.lookup : SubMap → String → Option ComponentConfig
  | .nil, _ => none
  | .cons k v rest, key => if k = key then some v else rest.lookup key

/-- Concatenation of two child maps. -/
def SubMap.append : SubMap → SubMap → SubMap
  | .nil, o => o
  | .cons k v rest, o => .cons k v (rest.append o)

/-- Lookup in an own-settings map. -/
def lookupVal : String → List (String × Json) → Option Json
  | _, [] => none
  | key, (k, v) :: rest => if k = key then some v else lookupVal key rest

/-- Key-wise merge of two own-settings maps: keys of the target keep their
position but take the overlay's value when the overlay also has the key;
keys only in the overlay are appended. -/
def mergeValues (t o : List (String × Json)) : List (String × Json) :=
  t.map (fun kv => match lookupVal kv.1 o with | some v2 => (kv.1, v2) | none => kv)
    ++ o.filter (fun kv => (lookupVal kv.1 t).isNone)

/-- Entries of `o` whose key is absent from `t`, unchanged. -/
def newSubs (t : SubMap) : SubMap → SubMap
  | .nil => .nil
  | .cons k v rest =>
    if (t.lookup k).isSome then newSubs t rest else .cons k v (newSubs t rest)

mutual

/-- Modelled from the spec: `ComponentConfig.Merge` is declared in this
repository but its definition is not under `src/` (only its call sites in
`component.go` are).  Per §4.1 of the spec it is `merge(target, overlay)`
producing the target as the merge result, with an empty `ComponentConfig` as
the identity element (§3); the exact key-level precedence is left open
(§9).  We fix the conventional most-specific-wins policy: the overlay's
value wins on a shared key, child maps are merged recursively, and keys
present on only one side are kept. -/
def ComponentConfig.Merge : ComponentConfig → ComponentConfig → ComponentConfig
  | .mk c s, .mk c2 s2 => .mk (mergeValues c c2) ((mergeSubsInto s s2).append (newSubs s s2))

/-- Recursive part of `ComponentConfig.Merge` on child maps: every entry of
the target child map is merged with the overlay's entry of the same key when
present. -/
def mergeSubsInto : SubMap → SubMap → SubMap
  | .nil, _ => .nil
  | .cons k v rest, o =>
    .cons k (match o.lookup k with | some ov => v.Merge ov | none => v) (mergeSubsInto rest o)

end

/-- `Component` from the Go source.  `Subcomponents` holds the child
declarations exactly as written in this component's descriptor. -/
inductive Component where
  | mk (Name Source Method Generator : String) (Subcomponents : List Component)
      (Repo Path PhysicalPath LogicalPath : String) (Config : ComponentConfig)
      (Manifest : String)

def Component.Name : Component → String
  | .mk n _ _ _ _ _ _ _ _ _ _ => n

def Component.Source : Component → String
  | .mk _ s _ _ _ _ _ _ _ _ _ => s

def Component.Method : Component → String
  | .mk _ _ m _ _ _ _ _ _ _ _ => m

def Component.Generator : Component → String
  | .mk _ _ _ g _ _ _ _ _ _ _ => g

def Component.Subcomponents : Component → List Component
  | .mk _ _ _ _ subs _ _ _ _ _ _ => subs

def Component.Repo : Component → String
  | .mk _ _ _ _ _ r _ _ _ _ _ => r

def Component.Path : Component → String
  | .mk _ _ _ _ _ _ p _ _ _ _ => p

def Component.PhysicalPath : Component → String
  | .mk _ _ _ _ _ _ _ pp _ _ _ => pp

def Component.LogicalPath : Component → String
  | .mk _ _ _ _ _ _ _ _ lp _ _ => lp

def Component.Config : Component → ComponentConfig
  | .mk _ _ _ _ _ _ _ _ _ cfg _ => cfg

def Component.Manifest : Component → String
  | .mk _ _ _ _ _ _ _ _ _ _ mf => mf

/-- Replace the `PhysicalPath` field (Go struct field assignment). -/
def Component.setPhysicalPath : Component → String → Component
  | .mk n s m g subs r p _ lp cfg mf, pp => .mk n s m g subs r p pp lp cfg mf

/-- Replace the `LogicalPath` field. -/
def Component.setLogicalPath : Component → String → Component
  | .mk n s m g subs r p pp _ cfg mf, lp => .mk n s m g subs r p pp lp cfg mf

/-- Replace the `Config` field. -/
def Component.setConfig : Component → ComponentConfig → Component
  | .mk n s m g subs r p pp lp _ mf, cfg => .mk n s m g subs r p pp lp cfg mf

/-- Replace the `Name` field. -/
def Component.setName : Component → String → Component
  | .mk _ s m g subs r p pp lp cfg mf, n => .mk n s m g subs r p pp lp cfg mf

/-- The Go zero value of `Component` (all strings empty, no subcomponents,
zero-valued config). -/
def Component.zero : Component := .mk "" "" "" "" [] "" "" "" "" emptyConfig ""

/-- Splits a character list into the groups between `'/'` separators,
returning the first group and the remaining groups (so the full group list
is always non-empty: `g :: gs`). -/
def splitSlashAux : List Char → List Char × List (List Char)
  | [] => ([], [])
  | c :: rest =>
    let p := splitSlashAux rest
    if c = '/' then ([], p.1 :: p.2) else (c :: p.1, p.2)

/-- All `'/'`-separated groups of a character list. -/
def splitSlash (cs : List Char) : List (List Char) :=
  (splitSlashAux cs).1 :: (splitSlashAux cs).2

/-- The element-processing loop of Go's `path.Clean`, expressed over the
list of path elements: empty and `"."` elements are dropped, a `".."`
element pops the last kept element when one is poppable, is dropped at the
root of a rooted path, and is kept on a non-rooted path that cannot
backtrack.  The accumulator holds the kept elements in reverse. -/
def cleanStack (rooted : Bool) : List (List Char) → List (List Char) → List (List Char)
  | stack, [] => stack.reverse
  | stack, e :: rest =>
    if e = [] ∨ e = ['.'] then cleanStack rooted stack rest
    else if e = ['.', '.'] then
      match stack with
      | top :: stack2 =>
        if top = ['.', '.'] then cleanStack rooted (e :: top :: stack2) rest
        else cleanStack rooted stack2 rest
      | [] => if rooted then cleanStack rooted [] rest else cleanStack rooted [e] rest
    else cleanStack rooted (e :: stack) rest

/-- Reassemble path elements with `'/'` separators. -/
def joinSlash : List (List Char) → List Char
  | [] => []
  | [g] => g
  | g :: rest => g ++ '/' :: joinSlash rest

/-- Reassembly step of Go's `path.Clean`: prepend the root slash when the
input was rooted, and turn an empty element list into `"."` (or `"/"` when
rooted). -/
def goAssemble (rooted : Bool) (stack : List (List Char)) : List Char :=
  if rooted then
    match stack with
    | [] => ['/']
    | _ => '/' :: joinSlash stack
  else
    match stack with
    | [] => ['.']
    | _ => joinSlash stack

/-- Go's `path.Clean` on a character list (external standard library used by
`component.go`; modelled by its documented semantics: apply `cleanStack` to
the slash-separated elements and reassemble). -/
def goCleanList (cs : List Char) : List Char :=
  match cs with
  | [] => ['.']
  | c :: _ => goAssemble (c == '/') (cleanStack (c == '/') [] (splitSlash cs))

/-- Go's `path.Clean` on strings. -/
def goClean (s : String) : String := String.mk (goCleanList s.data)

/-- Go's `path.Join`: concatenate the elements that have been seen so far
with `'/'` (an empty element after a non-empty one still contributes its
separator), then `Clean`; all-empty input yields `""`. -/
def goJoin (elems : List String) : String :=
  let buf := elems.foldl (fun buf e => if buf = "" then e else buf ++ "/" ++ e) ""
  if buf = "" then "" else goClean buf

/-- Two-argument `path.Join`, the form used throughout `component.go`. -/
def goPathJoin (a b : String) : String := goJoin [a, b]

/-- Outcome of reading-and-parsing one file, as distinguished by
`component.go`: `os.Stat` reports the file missing, `ioutil.ReadFile`
fails, `json.Unmarshal` fails, or the parsed value is produced. -/
inductive FileResult (α : Type) where
  | missing
  | unreadable
  | malformed
  | ok (val : α)

/-- The ambient filesystem for one run: every full path either holds a
descriptor (parsed as `Component`) or an overlay config file (parsed as
`ComponentConfig`).  Descriptor paths and overlay paths are disjoint in the
source (`component.json` versus `config/*.json`), so two maps are used. -/
structure FileSystem where
  descriptorAt : String → FileResult Component
  configAt : String → FileResult ComponentConfig

/-- Errors surfaced by the embedded functions.  `notFound` is the
`errors.Errorf("Component expected at path %s not found")` error,
`ioError`/`parseError` are the propagated read/unmarshal failures, and
`callback` stands for an opaque caller-defined error. -/
inductive GoError where
  | notFound (path : String)
  | ioError (path : String)
  | parseError (path : String)
  | callback (msg : String)
deriving DecidableEq

/-- `(*Component).LoadComponent` from `component.go`: read and parse the
descriptor at `PhysicalPath/component.json`, overwrite its
`PhysicalPath`/`LogicalPath` with the receiver's, and merge the receiver's
pending config into the parsed config. -/
def Component.LoadComponent (fs : FileSystem) (c : Component) : Except GoError Component :=
  let componentJSONPath := goPathJoin c.PhysicalPath "component.json"
  match fs.descriptorAt componentJSONPath with
  | .missing => .error (.notFound componentJSONPath)
  | .unreadable => .error (.ioError componentJSONPath)
  | .malformed => .error (.parseError componentJSONPath)
  | .ok parsed =>
    .ok (((parsed.setPhysicalPath c.PhysicalPath).setLogicalPath c.LogicalPath).setConfig
      (parsed.Config.Merge c.Config))

/-- `(*Component).MergeConfigFile`: a missing overlay file is skipped
silently, a present file is parsed and merged into the receiver's config. -/
def Component.MergeConfigFile (fs : FileSystem) (c : Component) (p : String) :
    Except GoError Component :=
  match fs.configAt p with
  | .missing => .ok c
  | .unreadable => .error (.ioError p)
  | .malformed => .error (.parseError p)
  | .ok cc => .ok (c.setConfig (c.Config.Merge cc))

/-- `(*Component).LoadConfig`: merge the environment-specific overlay at
`PhysicalPath/config/<environment>.json`, then the common overlay at
`PhysicalPath/config/common.json`. -/
def Component.LoadConfig (fs : FileSystem) (environment : String) (c : Component) :
    Except GoError Component :=
  let environmentConfigPath := goJoin [c.PhysicalPath, "config", environment ++ ".json"]
  match c.MergeConfigFile fs environmentConfigPath with
  | .error e => .error e
  | .ok c1 =>
    let commonPath := goJoin [c1.PhysicalPath, "config", "common.json"]
    c1.MergeConfigFile fs commonPath

/-- `(*Component).RelativePathTo`. -/
def Component.RelativePathTo (c : Component) : String :=
  if c.Method = "git" then "components/" ++ c.Name
  else if c.Source ≠ "" then c.Name
  else "./"

/-- One side-effecting step attempted by `(*Component).Install`:
`mkdir -p`, `rm -rf`, or `git clone`. -/
inductive InstallStep where
  | mkdirAll (dir : String)
  | removeAll (dir : String)
  | gitClone (source dest : String)
deriving DecidableEq

/-- The loop body of `(*Component).Install` over the list of subcomponent
declarations.  `run` is the oracle for `exec.Command(...).Run()`: `none`
means the subprocess succeeded.  The returned list records the steps that
were attempted, in order. -/
def installLoop (run : InstallStep → Option GoError) (componentPath : String) :
    List Component → List InstallStep × Option GoError
  | [] => ([], none)
  | sub :: rest =>
    if sub.Method = "git" then
      let step1 := InstallStep.mkdirAll (componentPath ++ "/components")
      match run step1 with
      | some e => ([step1], some e)
      | none =>
        let subcomponentPath := goPathJoin componentPath sub.RelativePathTo
        let step2 := InstallStep.removeAll subcomponentPath
        match run step2 with
        | some e => ([step1, step2], some e)
        | none =>
          let step3 := InstallStep.gitClone sub.Source subcomponentPath
          match run step3 with
          | some e => ([step1, step2, step3], some e)
          | none =>
            let r := installLoop run componentPath rest
            (step1 :: step2 :: step3 :: r.1, r.2)
    else installLoop run componentPath rest

/-- `(*Component).Install`. -/
def Component.Install (run : InstallStep → Option GoError) (componentPath : String)
    (c : Component) : List InstallStep × Option GoError :=
  installLoop run componentPath c.Subcomponents

/-- The caller-supplied per-node callback (`ComponentIteration` in Go).  The
Go callback mutates the node through a pointer and returns an error; here it
returns the possibly-mutated node on success. -/
def ComponentIteration : Type := String → Component → Except GoError Component

/-- The stub enqueued for one subcomponent declaration (the `Component{...}`
literal built in the traversal loop; every unnamed field is the Go zero
value). -/
def mkStub (parent decl : Component) : Component :=
  ((Component.zero.setPhysicalPath (goPathJoin parent.PhysicalPath decl.RelativePathTo)
    |>.setLogicalPath (goPathJoin parent.LogicalPath decl.Name))
    |>.setConfig ((parent.Config.Subcomponents.lookup decl.Name).getD emptyConfig))
    |>.setName decl.Name

/-- The stubs enqueued for a node's subcomponent declarations, skipping
inline declarations (empty `Source`), in declaration order. -/
def subStubs (parent : Component) : List Component → List Component
  | [] => []
  | d :: rest =>
    if d.Source = "" then subStubs parent rest
    else mkStub parent d :: subStubs parent rest

/-- The body of one traversal iteration: load the dequeued stub, apply the
overlay configs, dispatch the callback, and compute the child stubs to
enqueue (from the post-callback node, as in the source). -/
def processStub (fs : FileSystem) (env : String) (cb : ComponentIteration) (c : Component) :
    Except GoError (Component × List Component) :=
  match c.LoadComponent fs with
  | .error e => .error e
  | .ok loaded =>
    match loaded.LoadConfig fs env with
    | .error e => .error e
    | .ok cfged =>
      match cb cfged.PhysicalPath cfged with
      | .error e => .error e
      | .ok comp => .ok (comp, subStubs comp comp.Subcomponents)

/-- The `for len(queue) != 0` loop of `IterateComponentTree`, indexed by the
number of iterations still allowed.  `none` means the loop did not finish
within the given fuel; `some (l, some e)` mirrors the Go `return nil, err`
(the accumulated list is discarded) and `some (l, none)` the successful
return. -/
def iterAux (fs : FileSystem) (env : String) (cb : ComponentIteration) :
    Nat → List Component → List Component → Option (List Component × Option GoError)
  | _, [], acc => some (acc, none)
  | 0, _ :: _, _ => none
  | fuel + 1, c :: rest, acc =>
    match processStub fs env cb c with
    | .error e => some ([], some e)
    | .ok (comp, kids) => iterAux fs env cb fuel (rest ++ kids) (acc ++ [comp])

/-- The synthetic root stub seeded into the queue (`PhysicalPath` the
caller-supplied starting path, `LogicalPath` `"./"`, freshly made empty
config maps). -/
def rootStub (startingPath : String) : Component :=
  (Component.zero.setPhysicalPath startingPath |>.setLogicalPath "./").setConfig
    (.mk [] .nil)

/-- `IterateComponentTree` from `component.go`, as a run bounded by `fuel`
loop iterations. -/
def IterateComponentTree (fs : FileSystem) (env : String) (cb : ComponentIteration)
    (fuel : Nat) (startingPath : String) : Option (List Component × Option GoError) :=
  iterAux fs env cb fuel [rootStub startingPath] []

/-- Specification-side executor: run a list of steps in order until the
first failure, returning the attempted steps and the first error. -/
def runSteps (run : InstallStep → Option GoError) : List InstallStep →
    List InstallStep × Option GoError
  | [] => ([], none)
  | s :: rest =>
    match run s with
    | some e => ([s], some e)
    | none =>
      let r := runSteps run rest
      (s :: r.1, r.2)

/-- Specification-side install plan: for each declaration with `Method ==
"git"`, in declaration order, the ensure-directory, forced-removal, and
clone steps; nothing for any other declaration. -/
def installPlan (componentPath : String) : List Component → List InstallStep
  | [] => []
  | sub :: rest =>
    (if sub.Method = "git" then
      [InstallStep.mkdirAll (componentPath ++ "/components"),
       InstallStep.removeAll (goPathJoin componentPath sub.RelativePathTo),
       InstallStep.gitClone sub.Source (goPathJoin componentPath sub.RelativePathTo)]
     else []) ++ installPlan componentPath rest

/-- Specification-side expansion of one breadth-first level: process every
stub of the level in order, collecting the completed nodes and the
concatenated child stubs; `none` when any stub fails. -/
def expandLevelOk (fs : FileSystem) (env : String) (cb : ComponentIteration) :
    List Component → Option (List Component × List Component)
  | [] => some ([], [])
  | s :: rest =>
    match processStub fs env cb s with
    | .error _ => none
    | .ok (comp, kids) =>
      match expandLevelOk fs env cb rest with
      | none => none
      | some (comps, next) => some (comp :: comps, kids ++ next)

/-- Specification-side breadth-first enumeration: completed nodes level by
level, siblings in declaration order, each level fully listed before any
node of the next level.  `lf` bounds the number of levels. -/
def bfsLevels (fs : FileSystem) (env : String) (cb : ComponentIteration) :
    Nat → List Component → Option (List Component)
  | _, [] => some []
  | 0, _ :: _ => none
  | lf + 1, stubs =>
    match expandLevelOk fs env cb stubs with
    | none => none
    | some (comps, next) =>
      match bfsLevels fs env cb lf next with
      | none => none
      | some rest => some (comps ++ rest)

/-- The number of non-inline (non-empty `Source`) subcomponent declarations
of a node. -/
def nonInlineCount (c : Component) : Nat :=
  (c.Subcomponents.filter (fun d => d.Source != "")).length

def gitDb : Component := .mk "db" "" "git" "" [] "" "" "" "" emptyConfig ""

def httpCache : Component := .mk "cache" "http://x" "" "" [] "" "" "" "" emptyConfig ""

def inlineAssets : Component := .mk "assets" "" "" "" [] "" "" "" "" emptyConfig ""

def descR : Component := .mk "r" "" "" "" [] "" "" "ignored-phys" "ignored-log" emptyConfig ""

def fsOneDesc : FileSystem where
  descriptorAt := fun p => if p = "root/component.json" then .ok descR else .missing
  configAt := fun _ => .missing

def stubR : Component := (Component.zero.setPhysicalPath "root").setLogicalPath "./"

def cfgEnvVal : ComponentConfig := .mk [("port", .num 80)] .nil

def cfgCommonVal : ComponentConfig := .mk [("port", .num 8080), ("debug", .bool false)] .nil

def fsOverlays : FileSystem where
  descriptorAt := fun _ => .missing
  configAt := fun p =>
    if p = "root/config/production.json" then .ok cfgEnvVal
    else if p = "root/config/common.json" then .ok cfgCommonVal
    else .missing

/-- A step oracle on which every subprocess succeeds. -/
def alwaysOk : InstallStep → Option GoError := fun _ => none

def gitNoSource : Component := .mk "x" "" "git" "" [] "" "" "" "" emptyConfig ""

def parentOfGitNoSource : Component :=
  .mk "p" "" "" "" [gitNoSource] "" "" "" "" emptyConfig ""

/-- A filesystem with no files at all. -/
def fsNone : FileSystem where
  descriptorAt := fun _ => .missing
  configAt := fun _ => .missing

/-- The identity callback (no mutation, no error). -/
def cbOk : ComponentIteration := fun _ c => .ok c

/-- The completed root node of the `fsOneDesc` run. -/
def rDone : Component := .mk "r" "" "" "" [] "" "" "root" "./" emptyConfig ""

/-- A subcomponent declaration `{Name: "a", Source: "s"}`. -/
def dupDecl : Component := .mk "a" "s" "" "" [] "" "" "" "" emptyConfig ""

/-- A root descriptor declaring the same subcomponent twice. -/
def dupRootDesc : Component := .mk "r" "" "" "" [dupDecl, dupDecl] "" "" "" "" emptyConfig ""

/-- The descriptor of subcomponent `a`. -/
def aDesc : Component := .mk "a" "" "" "" [] "" "" "" "" emptyConfig ""

def fsDup : FileSystem where
  descriptorAt := fun p =>
    if p = "r/component.json" then .ok dupRootDesc
    else if p = "r/a/component.json" then .ok aDesc
    else .missing
  configAt := fun _ => .missing

/-- The completed root of the `fsDup` run. -/
def dupRootDone : Component := .mk "r" "" "" "" [dupDecl, dupDecl] "" "" "r" "./" emptyConfig ""

/-- The completed `a` node of the `fsDup` run. -/
def aDone : Component := .mk "a" "" "" "" [] "" "" "r/a" "a" emptyConfig ""

/-- A path element that `cleanStack` always keeps: non-empty and neither
`"."` nor `".."`. -/
def plainElem (e : List Char) : Prop := e ≠ [] ∧ e ≠ ['.'] ∧ e ≠ ['.', '.']

/-- A well-formed component name: non-empty, not a dot element, and free of
path separators. -/
def cleanName (n : String) : Prop :=
  n.data ≠ [] ∧ n.data ≠ ['.'] ∧ n.data ≠ ['.', '.'] ∧ '/' ∉ n.data

/-- Slash-joined name sequences (the shape of a logical path below the
root). -/
def slashJoin : List String → String
  | [] => ""
  | [n] => n
  | n :: rest => n ++ "/" ++ slashJoin rest

instance cleanName_decidable (n : String) : Decidable (cleanName n) := by
  unfold cleanName
  infer_instance

/-- Spot checks of the `path.Join`/`path.Clean` model against Go's
documented behaviour. -/
theorem goPathJoin_spot_checks :
    goPathJoin "./" "web" = "web" ∧ goPathJoin "root" "component.json" = "root/component.json" ∧
      goPathJoin "a/b" "c" = "a/b/c" ∧ goPathJoin "r" "./" = "r" ∧ goPathJoin "" "" = "" ∧
      goClean "/a/../.." = "/" ∧ goClean "a/../../b" = "../b" ∧
      goJoin ["r", "config", "prod.json"] = "r/config/prod.json" := by
  decide

@[simp] theorem Name_setPhysicalPath (c : Component) (p : String) :
    (c.setPhysicalPath p).Name = c.Name := by cases c; rfl

@[simp] theorem Name_setLogicalPath (c : Component) (p : String) :
    (c.setLogicalPath p).Name = c.Name := by cases c; rfl

@[simp] theorem Name_setConfig (c : Component) (k : ComponentConfig) :
    (c.setConfig k).Name = c.Name := by cases c; rfl

@[simp] theorem Name_setName (c : Component) (n : String) :
    (c.setName n).Name = n := by cases c; rfl

@[simp] theorem Source_setPhysicalPath (c : Component) (p : String) :
    (c.setPhysicalPath p).Source = c.Source := by cases c; rfl

@[simp] theorem Source_setLogicalPath (c : Component) (p : String) :
    (c.setLogicalPath p).Source = c.Source := by cases c; rfl

@[simp] theorem Source_setConfig (c : Component) (k : ComponentConfig) :
    (c.setConfig k).Source = c.Source := by cases c; rfl

@[simp] theorem Source_setName (c : Component) (n : String) :
    (c.setName n).Source = c.Source := by cases c; rfl

@[simp] theorem Method_setPhysicalPath (c : Component) (p : String) :
    (c.setPhysicalPath p).Method = c.Method := by cases c; rfl

@[simp] theorem Method_setLogicalPath (c : Component) (p : String) :
    (c.setLogicalPath p).Method = c.Method := by cases c; rfl

@[simp] theorem Method_setConfig (c : Component) (k : ComponentConfig) :
    (c.setConfig k).Method = c.Method := by cases c; rfl

@[simp] theorem Method_setName (c : Component) (n : String) :
    (c.setName n).Method = c.Method := by cases c; rfl

@[simp] theorem Subcomponents_setPhysicalPath (c : Component) (p : String) :
    (c.setPhysicalPath p).Subcomponents = c.Subcomponents := by cases c; rfl

@[simp] theorem Subcomponents_setLogicalPath (c : Component) (p : String) :
    (c.setLogicalPath p).Subcomponents = c.Subcomponents := by cases c; rfl

@[simp] theorem Subcomponents_setConfig (c : Component) (k : ComponentConfig) :
    (c.setConfig k).Subcomponents = c.Subcomponents := by cases c; rfl

@[simp] theorem Subcomponents_setName (c : Component) (n : String) :
    (c.setName n).Subcomponents = c.Subcomponents := by cases c; rfl

@[simp] theorem PhysicalPath_setPhysicalPath (c : Component) (p : String) :
    (c.setPhysicalPath p).PhysicalPath = p := by cases c; rfl

@[simp] theorem PhysicalPath_setLogicalPath (c : Component) (p : String) :
    (c.setLogicalPath p).PhysicalPath = c.PhysicalPath := by cases c; rfl

@[simp] theorem PhysicalPath_setConfig (c : Component) (k : ComponentConfig) :
    (c.setConfig k).PhysicalPath = c.PhysicalPath := by cases c; rfl

@[simp] theorem PhysicalPath_setName (c : Component) (n : String) :
    (c.setName n).PhysicalPath = c.PhysicalPath := by cases c; rfl

@[simp] theorem LogicalPath_setPhysicalPath (c : Component) (p : String) :
    (c.setPhysicalPath p).LogicalPath = c.LogicalPath := by cases c; rfl

@[simp] theorem LogicalPath_setLogicalPath (c : Component) (p : String) :
    (c.setLogicalPath p).LogicalPath = p := by cases c; rfl

@[simp] theorem LogicalPath_setConfig (c : Component) (k : ComponentConfig) :
    (c.setConfig k).LogicalPath = c.LogicalPath := by cases c; rfl

@[simp] theorem LogicalPath_setName (c : Component) (n : String) :
    (c.setName n).LogicalPath = c.LogicalPath := by cases c; rfl

@[simp] theorem Config_setPhysicalPath (c : Component) (p : String) :
    (c.setPhysicalPath p).Config = c.Config := by cases c; rfl

@[simp] theorem Config_setLogicalPath (c : Component) (p : String) :
    (c.setLogicalPath p).Config = c.Config := by cases c; rfl

@[simp] theorem Config_setConfig (c : Component) (k : ComponentConfig) :
    (c.setConfig k).Config = k := by cases c; rfl

@[simp] theorem Config_setName (c : Component) (n : String) :
    (c.setName n).Config = c.Config := by cases c; rfl

theorem lookupVal_nil (key : String) : lookupVal key [] = none := rfl

theorem mergeValues_nil_right (c : List (String × Json)) : mergeValues c [] = c := by
  induction c with
  | nil => rfl
  | cons kv rest ih =>
    simp [mergeValues, lookupVal, ih]

theorem mergeValues_nil_left (c : List (String × Json)) : mergeValues [] c = c := by
  induction c with
  | nil => rfl
  | cons kv rest ih =>
    simp [mergeValues, lookupVal, ih]

theorem mergeSubsInto_nil_right : ∀ (s : SubMap), mergeSubsInto s .nil = s
  | .nil => rfl
  | .cons k v rest => by
    simp [mergeSubsInto, SubMap.lookup, mergeSubsInto_nil_right rest]

theorem newSubs_nil_left : ∀ (o : SubMap), newSubs .nil o = o
  | .nil => rfl
  | .cons k v rest => by
    simp [newSubs, SubMap.lookup, newSubs_nil_left rest]

theorem SubMap.append_nil : ∀ (s : SubMap), s.append .nil = s
  | .nil => rfl
  | .cons k v rest => by
    simp [SubMap.append, SubMap.append_nil rest]

/-- Claim C9: the empty `ComponentConfig` is a two-sided identity for the
merge operation: merging an empty config into any config `X` yields `X`
unchanged, and merging `X` into an empty config yields `X`; in particular
this holds for the empty root config created by the traversal engine. -/
theorem merge_emptyConfig_identity (X : ComponentConfig) :
    X.Merge emptyConfig = X ∧ emptyConfig.Merge X = X := by
  obtain ⟨c, s⟩ := X
  constructor
  · simp [emptyConfig, ComponentConfig.Merge, mergeValues_nil_right,
      mergeSubsInto_nil_right, newSubs, SubMap.append_nil]
  · simp [emptyConfig, ComponentConfig.Merge, mergeValues_nil_left,
      mergeSubsInto, newSubs_nil_left, SubMap.append]

/-- Claim C5: `RelativePathTo` is a pure total function of `Method`,
`Source`, and `Name`: method `"git"` yields `components/<Name>` regardless
of `Source`, otherwise a non-empty `Source` yields the bare `Name`, and
otherwise the result is `"./"`. -/
theorem relativePathTo_cases (c : Component) :
    (c.Method = "git" → c.RelativePathTo = "components/" ++ c.Name) ∧
    (c.Method ≠ "git" → c.Source ≠ "" → c.RelativePathTo = c.Name) ∧
    (c.Method ≠ "git" → c.Source = "" → c.RelativePathTo = "./") := by
  refine ⟨fun h => ?_, fun h h2 => ?_, fun h h2 => ?_⟩
  · simp [Component.RelativePathTo, h]
  · simp [Component.RelativePathTo, h, h2]
  · simp [Component.RelativePathTo, h, h2]

/-- Witness for C5 at the spec's three examples. -/
theorem relativePathTo_cases_witness :
    gitDb.RelativePathTo = "components/db" ∧ httpCache.RelativePathTo = "cache" ∧
      inlineAssets.RelativePathTo = "./" :=
  ⟨(relativePathTo_cases gitDb).1 rfl,
   (relativePathTo_cases httpCache).2.1 (by decide) (by decide),
   (relativePathTo_cases inlineAssets).2.2 (by decide) rfl⟩

/-- Claim C7: on a stub whose descriptor parses, `LoadComponent` returns the
parsed descriptor with `PhysicalPath`/`LogicalPath` overwritten by the
stub's traversal-assigned values and with the stub's pending parent-pushed
config merged into the descriptor's own config; a missing descriptor file
yields the not-found error, a malformed one the parse error. -/
theorem loadComponent_cases (fs : FileSystem) (c parsed : Component) :
    (fs.descriptorAt (goPathJoin c.PhysicalPath "component.json") = .ok parsed →
      c.LoadComponent fs =
        .ok (((parsed.setPhysicalPath c.PhysicalPath).setLogicalPath c.LogicalPath).setConfig
          (parsed.Config.Merge c.Config))) ∧
    (∀ m, c.LoadComponent fs = .ok m →
      m.PhysicalPath = c.PhysicalPath ∧ m.LogicalPath = c.LogicalPath) ∧
    (fs.descriptorAt (goPathJoin c.PhysicalPath "component.json") = .missing →
      c.LoadComponent fs = .error (.notFound (goPathJoin c.PhysicalPath "component.json"))) ∧
    (fs.descriptorAt (goPathJoin c.PhysicalPath "component.json") = .malformed →
      c.LoadComponent fs = .error (.parseError (goPathJoin c.PhysicalPath "component.json"))) := by
  refine ⟨fun h => ?_, fun m hm => ?_, fun h => ?_, fun h => ?_⟩
  · simp [Component.LoadComponent, h]
  · unfold Component.LoadComponent at hm
    cases hd : fs.descriptorAt (goPathJoin c.PhysicalPath "component.json") <;>
      simp [hd] at hm
    simp [← hm]
  · simp [Component.LoadComponent, h]
  · simp [Component.LoadComponent, h]

/-- Witness for C7: a concrete stub and filesystem exercising the
successful-load conjunct of the theorem. -/
theorem loadComponent_cases_witness :
    fsOneDesc.descriptorAt (goPathJoin stubR.PhysicalPath "component.json") = .ok descR ∧
      stubR.LoadComponent fsOneDesc =
        .ok (((descR.setPhysicalPath stubR.PhysicalPath).setLogicalPath
          stubR.LogicalPath).setConfig (descR.Config.Merge stubR.Config)) :=
  ⟨rfl, (loadComponent_cases fsOneDesc stubR descR).1 rfl⟩

@[simp] theorem setConfig_setConfig (c : Component) (a b : ComponentConfig) :
    (c.setConfig a).setConfig b = c.setConfig b := by cases c; rfl

/-- Claim C8: `LoadConfig` merges the environment-specific overlay
(`config/<environment>.json` under `PhysicalPath`) strictly before the
common overlay (`config/common.json`); a missing overlay file is silently
skipped and never an error, a malformed present file is a parse error, and
an unreadable present file is an I/O error. -/
theorem loadConfig_cases (fs : FileSystem) (c : Component) (env : String)
    (e m : ComponentConfig) :
    (fs.configAt (goJoin [c.PhysicalPath, "config", env ++ ".json"]) = .ok e →
      fs.configAt (goJoin [c.PhysicalPath, "config", "common.json"]) = .ok m →
      c.LoadConfig fs env = .ok (c.setConfig ((c.Config.Merge e).Merge m))) ∧
    (fs.configAt (goJoin [c.PhysicalPath, "config", env ++ ".json"]) = .ok e →
      fs.configAt (goJoin [c.PhysicalPath, "config", "common.json"]) = .missing →
      c.LoadConfig fs env = .ok (c.setConfig (c.Config.Merge e))) ∧
    (fs.configAt (goJoin [c.PhysicalPath, "config", env ++ ".json"]) = .missing →
      fs.configAt (goJoin [c.PhysicalPath, "config", "common.json"]) = .ok m →
      c.LoadConfig fs env = .ok (c.setConfig (c.Config.Merge m))) ∧
    (fs.configAt (goJoin [c.PhysicalPath, "config", env ++ ".json"]) = .missing →
      fs.configAt (goJoin [c.PhysicalPath, "config", "common.json"]) = .missing →
      c.LoadConfig fs env = .ok c) ∧
    (fs.configAt (goJoin [c.PhysicalPath, "config", env ++ ".json"]) = .malformed →
      c.LoadConfig fs env =
        .error (.parseError (goJoin [c.PhysicalPath, "config", env ++ ".json"]))) ∧
    (fs.configAt (goJoin [c.PhysicalPath, "config", env ++ ".json"]) = .unreadable →
      c.LoadConfig fs env =
        .error (.ioError (goJoin [c.PhysicalPath, "config", env ++ ".json"]))) ∧
    (fs.configAt (goJoin [c.PhysicalPath, "config", env ++ ".json"]) = .missing →
      fs.configAt (goJoin [c.PhysicalPath, "config", "common.json"]) = .malformed →
      c.LoadConfig fs env =
        .error (.parseError (goJoin [c.PhysicalPath, "config", "common.json"]))) ∧
    (fs.configAt (goJoin [c.PhysicalPath, "config", env ++ ".json"]) = .missing →
      fs.configAt (goJoin [c.PhysicalPath, "config", "common.json"]) = .unreadable →
      c.LoadConfig fs env =
        .error (.ioError (goJoin [c.PhysicalPath, "config", "common.json"]))) := by
  refine ⟨fun h1 h2 => ?_, fun h1 h2 => ?_, fun h1 h2 => ?_, fun h1 h2 => ?_,
    fun h1 => by simp [Component.LoadConfig, Component.MergeConfigFile, h1],
    fun h1 => by simp [Component.LoadConfig, Component.MergeConfigFile, h1],
    fun h1 h2 => ?_, fun h1 h2 => ?_⟩ <;>
    simp [Component.LoadConfig, Component.MergeConfigFile, h1, h2]

/-- Witness for C8: the spec's overlay scenario, environment-specific file
merged before the common file. -/
theorem loadConfig_cases_witness :
    fsOverlays.configAt (goJoin [stubR.PhysicalPath, "config", "production" ++ ".json"]) =
        .ok cfgEnvVal ∧
      fsOverlays.configAt (goJoin [stubR.PhysicalPath, "config", "common.json"]) =
        .ok cfgCommonVal ∧
      stubR.LoadConfig fsOverlays "production" =
        .ok (stubR.setConfig ((stubR.Config.Merge cfgEnvVal).Merge cfgCommonVal)) :=
  ⟨rfl, rfl,
   (loadConfig_cases fsOverlays stubR "production" cfgEnvVal cfgCommonVal).1 rfl rfl⟩

theorem installLoop_eq_runSteps (run : InstallStep → Option GoError) (componentPath : String) :
    ∀ subs : List Component,
      installLoop run componentPath subs = runSteps run (installPlan componentPath subs) := by
  intro subs
  induction subs with
  | nil => rfl
  | cons sub rest ih =>
    by_cases hm : sub.Method = "git"
    · simp only [installLoop, installPlan, hm, if_pos, List.cons_append, List.nil_append]
      cases h1 : run (InstallStep.mkdirAll (componentPath ++ "/components")) with
      | some e => simp [runSteps, h1]
      | none =>
        cases h2 : run (InstallStep.removeAll
            (goPathJoin componentPath sub.RelativePathTo)) with
        | some e => simp [runSteps, h1, h2]
        | none =>
          cases h3 : run (InstallStep.gitClone sub.Source
              (goPathJoin componentPath sub.RelativePathTo)) with
          | some e => simp [runSteps, h1, h2, h3]
          | none => simp [runSteps, h1, h2, h3, ih]
    · simp [installLoop, installPlan, hm, ih]

/-- Claim C4 (amended): `Install` attempts exactly the
ensure-directory/forced-removal/clone step triple for each immediate
subcomponent whose `Method` is `"git"`, in declaration order, stopping at
the first failing step with that step's error; subcomponents whose `Method`
is not `"git"` contribute no steps regardless of `Source`.  (A subcomponent
with `Method == "git"` and empty `Source` still gets all three steps.) -/
theorem install_eq_runSteps_plan (run : InstallStep → Option GoError)
    (componentPath : String) (c : Component) :
    c.Install run componentPath = runSteps run (installPlan componentPath c.Subcomponents) :=
  installLoop_eq_runSteps run componentPath c.Subcomponents

/-- Counterexample to C4 as stated: the claim says subcomponents "with no
source" are left untouched, but `Install` keys only on `Method == "git"`,
so a subcomponent with `Method == "git"` and empty `Source` still gets the
directory-creation, removal, and clone steps. -/
theorem install_no_source_counterexample :
    gitNoSource.Source = "" ∧
      parentOfGitNoSource.Install alwaysOk "p" =
        ([InstallStep.mkdirAll "p/components", InstallStep.removeAll "p/components/x",
          InstallStep.gitClone "" "p/components/x"], none) :=
  ⟨rfl, rfl⟩

@[simp] theorem rootStub_PhysicalPath (sp : String) : (rootStub sp).PhysicalPath = sp := by
  simp [rootStub]

@[simp] theorem rootStub_LogicalPath (sp : String) : (rootStub sp).LogicalPath = "./" := by
  simp [rootStub]

@[simp] theorem rootStub_Config (sp : String) : (rootStub sp).Config = .mk [] .nil := by
  simp [rootStub]

theorem iterAux_error_nil (fs : FileSystem) (env : String) (cb : ComponentIteration) :
    ∀ (fuel : Nat) (q acc l : List Component) (e : GoError),
      iterAux fs env cb fuel q acc = some (l, some e) → l = [] := by
  intro fuel
  induction fuel with
  | zero =>
    intro q acc l e h
    cases q with
    | nil => simp [iterAux] at h
    | cons c rest => simp [iterAux] at h
  | succ f ih =>
    intro q acc l e h
    cases q with
    | nil => simp [iterAux] at h
    | cons c rest =>
      cases hp : processStub fs env cb c with
      | error e2 =>
        simp [iterAux, hp] at h
        exact h.1
      | ok pr =>
        obtain ⟨comp, kids⟩ := pr
        rw [iterAux, hp] at h
        exact ih (rest ++ kids) (acc ++ [comp]) l e h

/-- Claim C2: whenever any step of a traversal fails (descriptor load,
overlay load, or the callback), `IterateComponentTree` returns the empty
completed-components list together with that error; in particular a missing
descriptor at the root's computed physical path yields zero completed
components and the not-found error. -/
theorem iterate_error_nil (fs : FileSystem) (env : String) (cb : ComponentIteration)
    (fuel : Nat) (sp : String) :
    (∀ (l : List Component) (e : GoError),
      IterateComponentTree fs env cb fuel sp = some (l, some e) → l = []) ∧
    (0 < fuel → fs.descriptorAt (goPathJoin sp "component.json") = .missing →
      IterateComponentTree fs env cb fuel sp =
        some ([], some (.notFound (goPathJoin sp "component.json")))) ∧
    (∀ (s : Component) (q acc : List Component), 0 < fuel →
      fs.descriptorAt (goPathJoin s.PhysicalPath "component.json") = .missing →
      iterAux fs env cb fuel (s :: q) acc =
        some ([], some (.notFound (goPathJoin s.PhysicalPath "component.json")))) := by
  refine ⟨fun l e h => iterAux_error_nil fs env cb fuel [rootStub sp] [] l e h,
    fun hpos h => ?_, fun s q acc hpos h => ?_⟩
  · obtain ⟨f, rfl⟩ : ∃ f, fuel = f + 1 := ⟨fuel - 1, (Nat.succ_pred_eq_of_pos hpos).symm⟩
    simp [IterateComponentTree, iterAux, processStub, Component.LoadComponent, h]
  · obtain ⟨f, rfl⟩ : ∃ f, fuel = f + 1 := ⟨fuel - 1, (Nat.succ_pred_eq_of_pos hpos).symm⟩
    simp [iterAux, processStub, Component.LoadComponent, h]

/-- Witness for C2: on an empty filesystem the traversal returns no
completed components and the root's not-found error. -/
theorem iterate_error_nil_witness :
    0 < 1 ∧ fsNone.descriptorAt (goPathJoin "root" "component.json") = .missing ∧
      IterateComponentTree fsNone "prod" cbOk 1 "root" =
        some ([], some (.notFound (goPathJoin "root" "component.json"))) :=
  ⟨Nat.one_pos, rfl, (iterate_error_nil fsNone "prod" cbOk 1 "root").2.1 Nat.one_pos rfl⟩

theorem iterAux_acc_eq (fs : FileSystem) (env : String) (cb : ComponentIteration) :
    ∀ (fuel : Nat) (q acc : List Component),
      iterAux fs env cb fuel q acc =
        (iterAux fs env cb fuel q []).map
          (fun r => if r.2.isSome then r else (acc ++ r.1, r.2)) := by
  intro fuel
  induction fuel with
  | zero =>
    intro q acc
    cases q <;> simp [iterAux]
  | succ f ih =>
    intro q acc
    cases q with
    | nil => simp [iterAux]
    | cons c rest =>
      cases hp : processStub fs env cb c with
      | error e => simp [iterAux, hp]
      | ok pr =>
        obtain ⟨comp, kids⟩ := pr
        simp only [iterAux, hp, List.nil_append]
        rw [ih (rest ++ kids) (acc ++ [comp]), ih (rest ++ kids) [comp]]
        cases hx : iterAux fs env cb f (rest ++ kids) [] with
        | none => rfl
        | some r =>
          obtain ⟨t, err⟩ := r
          cases err <;> simp

theorem iterAux_acc_ok (fs : FileSystem) (env : String) (cb : ComponentIteration)
    (fuel : Nat) (q acc res : List Component) :
    iterAux fs env cb fuel q acc = some (res, none) ↔
      ∃ t, iterAux fs env cb fuel q [] = some (t, none) ∧ res = acc ++ t := by
  rw [iterAux_acc_eq]
  cases hx : iterAux fs env cb fuel q [] with
  | none => simp
  | some r =>
    obtain ⟨t, err⟩ := r
    cases err with
    | none =>
      constructor
      · intro h
        have h2 : (acc ++ t, (none : Option GoError)) = (res, none) := by injection h
        exact ⟨t, rfl, (congrArg Prod.fst h2).symm⟩
      · rintro ⟨t2, ht2, hres⟩
        have h2 : (t, (none : Option GoError)) = (t2, none) := by injection ht2
        have h3 : t = t2 := congrArg Prod.fst h2
        subst h3
        subst hres
        rfl
    | some e =>
      constructor
      · intro h
        have h2 : (t, some e) = (res, (none : Option GoError)) := by injection h
        exact absurd (congrArg Prod.snd h2) (by simp)
      · rintro ⟨t2, ht2, hres⟩
        have h2 : (t, some e) = (t2, (none : Option GoError)) := by injection ht2
        exact absurd (congrArg Prod.snd h2) (by simp)

theorem processStub_ok_kids (fs : FileSystem) (env : String) (cb : ComponentIteration)
    (c comp : Component) (kids : List Component) :
    processStub fs env cb c = .ok (comp, kids) → kids = subStubs comp comp.Subcomponents := by
  intro h
  unfold processStub at h
  cases hl : c.LoadComponent fs with
  | error e => simp [hl] at h
  | ok loaded =>
    simp only [hl] at h
    cases hc : loaded.LoadConfig fs env with
    | error e => simp [hc] at h
    | ok cfged =>
      simp only [hc] at h
      cases hcb : cb cfged.PhysicalPath cfged with
      | error e => simp [hcb] at h
      | ok comp2 =>
        simp only [hcb, Except.ok.injEq, Prod.mk.injEq] at h
        obtain ⟨h1, h2⟩ := h
        subst h1
        exact h2.symm

theorem iterAux_level (fs : FileSystem) (env : String) (cb : ComponentIteration) :
    ∀ (fuel : Nat) (cur next res : List Component),
      iterAux fs env cb fuel (cur ++ next) [] = some (res, none) →
      ∃ comps nk f2 rest,
        expandLevelOk fs env cb cur = some (comps, nk) ∧
        iterAux fs env cb f2 (next ++ nk) [] = some (rest, none) ∧
        res = comps ++ rest ∧ f2 ≤ fuel ∧ (cur ≠ [] → f2 < fuel) := by
  intro fuel
  induction fuel with
  | zero =>
    intro cur next res h
    cases cur with
    | nil =>
      refine ⟨[], [], 0, res, rfl, ?_, rfl, Nat.le_refl 0, fun hc => absurd rfl hc⟩
      rw [List.append_nil]
      exact h
    | cons a cur2 => simp [iterAux] at h
  | succ f ih =>
    intro cur next res h
    cases cur with
    | nil =>
      refine ⟨[], [], f + 1, res, rfl, ?_, rfl, Nat.le_refl (f + 1), fun hc => absurd rfl hc⟩
      rw [List.append_nil]
      exact h
    | cons a cur2 =>
      rw [List.cons_append] at h
      cases hp : processStub fs env cb a with
      | error e => simp [iterAux, hp] at h
      | ok pr =>
        obtain ⟨comp, kids⟩ := pr
        simp only [iterAux, hp, List.nil_append] at h
        rw [iterAux_acc_ok] at h
        obtain ⟨t, ht, htres⟩ := h
        rw [List.append_assoc] at ht
        obtain ⟨comps2, nk2, f2, rest2, hexp, hiter, ht2, hle, _⟩ :=
          ih cur2 (next ++ kids) t ht
        refine ⟨comp :: comps2, kids ++ nk2, f2, rest2, ?_, ?_, ?_, ?_, ?_⟩
        · simp [expandLevelOk, hp, hexp]
        · rw [← List.append_assoc]
          exact hiter
        · simp [htres, ht2]
        · exact Nat.le_trans hle (Nat.le_succ f)
        · exact fun _ => Nat.lt_succ_of_le hle

theorem iterAux_bfsLevels (fs : FileSystem) (env : String) (cb : ComponentIteration) :
    ∀ (fuel : Nat) (q res : List Component),
      iterAux fs env cb fuel q [] = some (res, none) →
      ∃ lf, bfsLevels fs env cb lf q = some res := by
  intro fuel
  induction fuel using Nat.strong_induction_on with
  | _ fuel ih =>
    intro q res h
    cases q with
    | nil =>
      have hres : res = [] := by
        cases fuel <;> · simp [iterAux] at h; exact h
      subst hres
      exact ⟨0, rfl⟩
    | cons c rest =>
      rw [← List.append_nil (c :: rest)] at h
      obtain ⟨comps, nk, f2, rest2, hexp, hiter, hres, _, hlt⟩ :=
        iterAux_level fs env cb fuel (c :: rest) [] res h
      have hf2 : f2 < fuel := hlt (by simp)
      rw [List.nil_append] at hiter
      obtain ⟨lf, hbfs⟩ := ih f2 hf2 nk rest2 hiter
      refine ⟨lf + 1, ?_⟩
      simp [bfsLevels, hexp, hbfs, hres]

theorem subStubs_length (parent : Component) :
    ∀ l : List Component,
      (subStubs parent l).length = (l.filter (fun d => d.Source != "")).length := by
  intro l
  induction l with
  | nil => rfl
  | cons d rest ih =>
    by_cases hs : d.Source = ""
    · simp [subStubs, hs, ih]
    · simp [subStubs, hs, ih]

theorem iterAux_length (fs : FileSystem) (env : String) (cb : ComponentIteration) :
    ∀ (fuel : Nat) (q res : List Component),
      iterAux fs env cb fuel q [] = some (res, none) →
      res.length = q.length + (res.map nonInlineCount).sum := by
  intro fuel
  induction fuel with
  | zero =>
    intro q res h
    cases q with
    | nil =>
      have hres : res = [] := by simp [iterAux] at h; exact h
      subst hres
      simp
    | cons c rest => simp [iterAux] at h
  | succ f ih =>
    intro q res h
    cases q with
    | nil =>
      have hres : res = [] := by simp [iterAux] at h; exact h
      subst hres
      simp
    | cons c rest =>
      cases hp : processStub fs env cb c with
      | error e => simp [iterAux, hp] at h
      | ok pr =>
        obtain ⟨comp, kids⟩ := pr
        simp only [iterAux, hp, List.nil_append] at h
        rw [iterAux_acc_ok] at h
        obtain ⟨t, ht, htres⟩ := h
        have hlen := ih (rest ++ kids) t ht
        have hkids : kids.length = nonInlineCount comp := by
          rw [processStub_ok_kids fs env cb c comp kids hp, subStubs_length]
          rfl
        subst htres
        simp only [List.length_append, List.singleton_append, List.length_cons,
          List.map_cons, List.sum_cons] at *
        omega

/-- Claim C1: for every error-free run of `IterateComponentTree`, the
completed-components sequence equals a level-by-level breadth-first
enumeration from the synthetic root (so siblings appear before any of their
children, in descriptor declaration order, and each tree node contributes
exactly one entry), and its length is exactly `N + 1` where `N` is the total
number of non-inline subcomponent declarations across the visited nodes
(one entry per non-inline node plus the synthetic root). -/
theorem iterate_bfs_count (fs : FileSystem) (env : String) (cb : ComponentIteration)
    (fuel : Nat) (sp : String) (res : List Component)
    (h : IterateComponentTree fs env cb fuel sp = some (res, none)) :
    (∃ lf, bfsLevels fs env cb lf [rootStub sp] = some res) ∧
      res.length = 1 + (res.map nonInlineCount).sum := by
  constructor
  · exact iterAux_bfsLevels fs env cb fuel [rootStub sp] res h
  · have hl := iterAux_length fs env cb fuel [rootStub sp] res h
    simpa using hl

/-- Witness for C1: a one-node concrete run. -/
theorem iterate_bfs_count_witness :
    IterateComponentTree fsOneDesc "prod" cbOk 2 "root" = some ([rDone], none) ∧
      ((∃ lf, bfsLevels fsOneDesc "prod" cbOk lf [rootStub "root"] = some [rDone]) ∧
        [rDone].length = 1 + ([rDone].map nonInlineCount).sum) :=
  ⟨rfl, iterate_bfs_count fsOneDesc "prod" cbOk 2 "root" [rDone] rfl⟩

/-- Counterexample to C3 as stated: the traversal performs no
deduplication, so when two declarations on the same parent reference the
same name, the same component is loaded, dispatched, and appended twice —
the completed sequence contains the identical entry `aDone` twice. -/
theorem iterate_duplicate_counterexample :
    IterateComponentTree fsDup "e" cbOk 4 "r" = some ([dupRootDone, aDone, aDone], none) ∧
      ¬ ([dupRootDone, aDone, aDone].Nodup) :=
  ⟨rfl, fun h => ((List.nodup_cons.mp (List.nodup_cons.mp h).2).1) (List.mem_singleton_self aDone)⟩

/-- Claim C3 (amended): every dequeued stub is loaded and dispatched to the
callback exactly once, contributing exactly one completed entry, and the
rest of the run continues from the remaining queue plus this node's child
stubs; but the engine does not deduplicate stubs, so when multiple
declarations reference the same name, each declaration enqueues its own
stub and the same component can appear more than once in the completed
sequence. -/
theorem iterate_visit_once (fs : FileSystem) (env : String) (cb : ComponentIteration)
    (fuel : Nat) (s : Component) (q res : List Component)
    (h : iterAux fs env cb fuel (s :: q) [] = some (res, none)) :
    ∃ comp kids rest f2, processStub fs env cb s = .ok (comp, kids) ∧
      res = comp :: rest ∧ f2 < fuel ∧
      iterAux fs env cb f2 (q ++ kids) [] = some (rest, none) := by
  cases fuel with
  | zero => simp [iterAux] at h
  | succ f =>
    cases hp : processStub fs env cb s with
    | error e => simp [iterAux, hp] at h
    | ok pr =>
      obtain ⟨comp, kids⟩ := pr
      simp only [iterAux, hp, List.nil_append] at h
      rw [iterAux_acc_ok] at h
      obtain ⟨t, ht, htres⟩ := h
      refine ⟨comp, kids, t, f, ?_, ?_, ?_, ?_⟩
      · rfl
      · exact htres
      · exact Nat.lt_succ_self f
      · exact ht

/-- Witness for the amended C3 at a concrete one-node run. -/
theorem iterate_visit_once_witness :
    iterAux fsOneDesc "prod" cbOk 2 [rootStub "root"] [] = some ([rDone], none) ∧
      (∃ comp kids rest f2, processStub fsOneDesc "prod" cbOk (rootStub "root") = .ok (comp, kids) ∧
        [rDone] = comp :: rest ∧ f2 < 2 ∧
        iterAux fsOneDesc "prod" cbOk f2 ([] ++ kids) [] = some (rest, none)) :=
  ⟨rfl, iterate_visit_once fsOneDesc "prod" cbOk 2 (rootStub "root") [] [rDone] rfl⟩

theorem subStubs_mem (parent : Component) :
    ∀ (decls : List Component) (s : Component), s ∈ subStubs parent decls →
      ∃ d, d ∈ decls ∧ d.Source ≠ "" ∧ s = mkStub parent d := by
  intro decls
  induction decls with
  | nil => intro s hs; simp [subStubs] at hs
  | cons d rest ih =>
    intro s hs
    by_cases hd : d.Source = ""
    · rw [subStubs, if_pos hd] at hs
      obtain ⟨d2, hmem, hsrc, heq⟩ := ih s hs
      exact ⟨d2, List.mem_cons_of_mem d hmem, hsrc, heq⟩
    · rw [subStubs, if_neg hd] at hs
      rcases List.mem_cons.mp hs with h1 | h2
      · exact ⟨d, List.mem_cons_self d rest, hd, h1⟩
      · obtain ⟨d2, hmem, hsrc, heq⟩ := ih s h2
        exact ⟨d2, List.mem_cons_of_mem d hmem, hsrc, heq⟩

theorem subStubs_filter (parent : Component) :
    ∀ decls : List Component,
      subStubs parent decls = subStubs parent (decls.filter (fun d => d.Source != "")) := by
  intro decls
  induction decls with
  | nil => rfl
  | cons d rest ih =>
    by_cases hd : d.Source = ""
    · simp [subStubs, hd, List.filter_cons, ih]
    · simp [subStubs, hd, List.filter_cons, ih]

theorem iterAux_provenance (fs : FileSystem) (env : String) (cb : ComponentIteration) :
    ∀ (fuel : Nat) (q res : List Component),
      iterAux fs env cb fuel q [] = some (res, none) →
      ∀ x, x ∈ res →
        (∃ s, s ∈ q ∧ ∃ kids, processStub fs env cb s = .ok (x, kids)) ∨
        (∃ y, y ∈ res ∧ ∃ d, d ∈ y.Subcomponents ∧ d.Source ≠ "" ∧
          ∃ kids, processStub fs env cb (mkStub y d) = .ok (x, kids)) := by
  intro fuel
  induction fuel with
  | zero =>
    intro q res h x hx
    cases q with
    | nil =>
      have hres : res = [] := by simp [iterAux] at h; exact h
      subst hres
      simp at hx
    | cons c rest => simp [iterAux] at h
  | succ f ih =>
    intro q res h x hx
    cases q with
    | nil =>
      have hres : res = [] := by simp [iterAux] at h; exact h
      subst hres
      simp at hx
    | cons c rest =>
      cases hp : processStub fs env cb c with
      | error e => simp [iterAux, hp] at h
      | ok pr =>
        obtain ⟨comp, kids⟩ := pr
        simp only [iterAux, hp, List.nil_append] at h
        rw [iterAux_acc_ok] at h
        obtain ⟨t, ht, htres⟩ := h
        subst htres
        rcases List.mem_append.mp hx with hx1 | hx2
        · have hxc : x = comp := by simpa using hx1
          subst hxc
          left
          exact ⟨c, List.mem_cons_self c rest, kids, hp⟩
        · rcases ih (rest ++ kids) t ht x hx2 with ⟨s, hs, hks⟩ | ⟨y, hy, hrest⟩
          · rcases List.mem_append.mp hs with hs1 | hs2
            · left
              exact ⟨s, List.mem_cons_of_mem c hs1, hks⟩
            · right
              have hkids := processStub_ok_kids fs env cb c comp kids hp
              rw [hkids] at hs2
              obtain ⟨d, hd, hdsrc, hseq⟩ := subStubs_mem comp comp.Subcomponents s hs2
              refine ⟨comp, List.mem_append.mpr (Or.inl (by simp)), d, hd, hdsrc, ?_⟩
              rw [← hseq]
              exact hks
          · right
            obtain ⟨d, hd, hdsrc, hks⟩ := hrest
            exact ⟨y, List.mem_append.mpr (Or.inr hy), d, hd, hdsrc, hks⟩

/-- Claim C6: inline subcomponent declarations (empty `Source`) are never
enqueued — the enqueued stubs are exactly those of the declarations with
non-empty `Source` — and every entry of an error-free completed sequence is
the processing result of the synthetic root stub or of a stub built from a
non-inline declaration of some completed node, so an inline declaration
never appears as a separate completed entry. -/
theorem inline_never_enqueued (parent : Component) (decls : List Component) (s : Component)
    (fs : FileSystem) (env : String) (cb : ComponentIteration) (fuel : Nat) (sp : String)
    (res : List Component) :
    (subStubs parent decls = subStubs parent (decls.filter (fun d => d.Source != ""))) ∧
    (s ∈ subStubs parent decls → ∃ d, d ∈ decls ∧ d.Source ≠ "" ∧ s = mkStub parent d) ∧
    (IterateComponentTree fs env cb fuel sp = some (res, none) → ∀ x, x ∈ res →
      (∃ kids, processStub fs env cb (rootStub sp) = .ok (x, kids)) ∨
      (∃ y, y ∈ res ∧ ∃ d, d ∈ y.Subcomponents ∧ d.Source ≠ "" ∧
        ∃ kids, processStub fs env cb (mkStub y d) = .ok (x, kids))) := by
  refine ⟨subStubs_filter parent decls, subStubs_mem parent decls s, fun h x hx => ?_⟩
  rcases iterAux_provenance fs env cb fuel [rootStub sp] res h x hx with ⟨s2, hs2, hks⟩ | hr
  · left
    have : s2 = rootStub sp := by simpa using hs2
    subst this
    exact hks
  · right
    exact hr

/-- Witness for C6 on the concrete `fsDup` run. -/
theorem inline_never_enqueued_witness :
    (mkStub dupRootDone dupDecl ∈ subStubs dupRootDone [dupDecl, dupDecl]) ∧
    (∃ d, d ∈ [dupDecl, dupDecl] ∧ d.Source ≠ "" ∧
      mkStub dupRootDone dupDecl = mkStub dupRootDone d) ∧
    (IterateComponentTree fsDup "e" cbOk 4 "r" = some ([dupRootDone, aDone, aDone], none)) ∧
    (aDone ∈ [dupRootDone, aDone, aDone]) ∧
    ((∃ kids, processStub fsDup "e" cbOk (rootStub "r") = .ok (aDone, kids)) ∨
      (∃ y, y ∈ [dupRootDone, aDone, aDone] ∧ ∃ d, d ∈ y.Subcomponents ∧ d.Source ≠ "" ∧
        ∃ kids, processStub fsDup "e" cbOk (mkStub y d) = .ok (aDone, kids))) :=
  ⟨List.mem_cons_self _ _,
   (inline_never_enqueued dupRootDone [dupDecl, dupDecl] (mkStub dupRootDone dupDecl) fsDup
      "e" cbOk 4 "r" [dupRootDone, aDone, aDone]).2.1 (List.mem_cons_self _ _),
   rfl,
   by simp,
   (inline_never_enqueued dupRootDone [dupDecl, dupDecl] (mkStub dupRootDone dupDecl) fsDup
      "e" cbOk 4 "r" [dupRootDone, aDone, aDone]).2.2 rfl aDone (by simp)⟩

theorem cleanStack_nil (rooted : Bool) (stack : List (List Char)) :
    cleanStack rooted stack [] = stack.reverse := rfl

theorem cleanStack_cons (rooted : Bool) (stack : List (List Char)) (e : List Char)
    (rest : List (List Char)) :
    cleanStack rooted stack (e :: rest) =
      if e = [] ∨ e = ['.'] then cleanStack rooted stack rest
      else if e = ['.', '.'] then
        (match stack with
         | top :: stack2 =>
           if top = ['.', '.'] then cleanStack rooted (e :: top :: stack2) rest
           else cleanStack rooted stack2 rest
         | [] => if rooted then cleanStack rooted [] rest else cleanStack rooted [e] rest)
      else cleanStack rooted (e :: stack) rest := rfl

theorem splitSlashAux_no_slash : ∀ cs : List Char,
    '/' ∉ (splitSlashAux cs).1 ∧ ∀ g ∈ (splitSlashAux cs).2, '/' ∉ g := by
  intro cs
  induction cs with
  | nil => exact ⟨by simp [splitSlashAux], by simp [splitSlashAux]⟩
  | cons c rest ih =>
    obtain ⟨ih1, ih2⟩ := ih
    by_cases hc : c = '/'
    · refine ⟨by simp [splitSlashAux, hc], ?_⟩
      intro g hg
      simp only [splitSlashAux, hc, if_pos] at hg
      rcases List.mem_cons.mp hg with h1 | h2
      · exact h1 ▸ ih1
      · exact ih2 g h2
    · refine ⟨?_, ?_⟩
      · simp only [splitSlashAux, if_neg hc]
        intro hmem
        rcases List.mem_cons.mp hmem with h1 | h2
        · exact hc h1.symm
        · exact ih1 h2
      · intro g hg
        simp only [splitSlashAux, if_neg hc] at hg
        exact ih2 g hg

theorem splitSlashAux_of_no_slash : ∀ cs : List Char, '/' ∉ cs → splitSlashAux cs = (cs, []) := by
  intro cs
  induction cs with
  | nil => intro _; rfl
  | cons c rest ih =>
    intro h
    have hc : c ≠ '/' := fun hh => h (hh ▸ List.mem_cons_self c rest)
    have hr : '/' ∉ rest := fun hh => h (List.mem_cons_of_mem c hh)
    simp [splitSlashAux, hc, ih hr]

theorem splitSlashAux_append : ∀ xs : List Char, '/' ∉ xs → ∀ ys : List Char,
    splitSlashAux (xs ++ '/' :: ys) = (xs, (splitSlashAux ys).1 :: (splitSlashAux ys).2) := by
  intro xs
  induction xs with
  | nil => intro _ ys; simp [splitSlashAux]
  | cons x xs2 ih =>
    intro h ys
    have hx : x ≠ '/' := fun hh => h (hh ▸ List.mem_cons_self x xs2)
    have hr : '/' ∉ xs2 := fun hh => h (List.mem_cons_of_mem x hh)
    simp [splitSlashAux, hx, ih hr ys]

theorem cleanStack_all_plain (rooted : Bool) : ∀ elems : List (List Char),
    (∀ e ∈ elems, plainElem e) → ∀ stack : List (List Char),
      cleanStack rooted stack elems = stack.reverse ++ elems := by
  intro elems
  induction elems with
  | nil => intro _ stack; simp [cleanStack_nil]
  | cons e rest ih =>
    intro h stack
    obtain ⟨h1, h2, h3⟩ := h e (List.mem_cons_self e rest)
    have hrest : ∀ x ∈ rest, plainElem x := fun x hx => h x (List.mem_cons_of_mem e hx)
    rw [cleanStack_cons, if_neg (not_or.mpr ⟨h1, h2⟩), if_neg h3, ih hrest (e :: stack)]
    simp

theorem cleanStack_good (rooted : Bool) : ∀ elems : List (List Char),
    (∀ e ∈ elems, '/' ∉ e) → ∀ stack : List (List Char),
      (∀ e ∈ stack, e ≠ [] ∧ '/' ∉ e) →
      ∀ e ∈ cleanStack rooted stack elems, e ≠ [] ∧ '/' ∉ e := by
  intro elems
  induction elems with
  | nil =>
    intro _ stack hstack e he
    rw [cleanStack_nil] at he
    exact hstack e (List.mem_reverse.mp he)
  | cons el rest ih =>
    intro helems stack hstack e he
    have hel : '/' ∉ el := helems el (List.mem_cons_self el rest)
    have hrest : ∀ x ∈ rest, '/' ∉ x := fun x hx => helems x (List.mem_cons_of_mem el hx)
    rw [cleanStack_cons] at he
    by_cases hskip : el = [] ∨ el = ['.']
    · rw [if_pos hskip] at he
      exact ih hrest stack hstack e he
    · rw [if_neg hskip] at he
      have hel0 : el ≠ [] := fun hh => hskip (Or.inl hh)
      by_cases hdd : el = ['.', '.']
      · rw [if_pos hdd] at he
        cases stack with
        | nil =>
          cases rooted with
          | true =>
            simp only [if_pos] at he
            exact ih hrest [] (by simp) e he
          | false =>
            simp only [Bool.false_eq_true, if_false] at he
            refine ih hrest [el] ?_ e he
            intro x hx
            rw [List.mem_singleton.mp hx]
            exact ⟨hel0, hel⟩
        | cons top stack2 =>
          have htopgood := hstack top (List.mem_cons_self top stack2)
          have hstack2 : ∀ x ∈ stack2, x ≠ [] ∧ '/' ∉ x :=
            fun x hx => hstack x (List.mem_cons_of_mem top hx)
          have he2 : e ∈ if top = ['.', '.'] then cleanStack rooted (el :: top :: stack2) rest
              else cleanStack rooted stack2 rest := he
          by_cases htop : top = ['.', '.']
          · rw [if_pos htop] at he2
            refine ih hrest (el :: top :: stack2) ?_ e he2
            intro x hx
            rcases List.mem_cons.mp hx with h1 | hx2
            · rw [h1]; exact ⟨hel0, hel⟩
            · rcases List.mem_cons.mp hx2 with h2 | hx3
              · rw [h2]; exact htopgood
              · exact hstack2 x hx3
          · rw [if_neg htop] at he2
            exact ih hrest stack2 hstack2 e he2
      · rw [if_neg hdd] at he
        refine ih hrest (el :: stack) ?_ e he
        intro x hx
        rcases List.mem_cons.mp hx with h1 | hx2
        · rw [h1]; exact ⟨hel0, hel⟩
        · exact hstack x hx2

theorem joinSlash_cons_ne_nil : ∀ (y : List Char) (rest : List (List Char)),
    y ≠ [] → joinSlash (y :: rest) ≠ [] := by
  intro y rest hy
  cases rest with
  | nil => simpa [joinSlash] using hy
  | cons z rest2 => simp [joinSlash]

theorem joinSlash_ne_dotslash : ∀ stack : List (List Char), stack ≠ [] →
    (∀ e ∈ stack, e ≠ [] ∧ '/' ∉ e) → joinSlash stack ≠ ['.', '/'] := by
  intro stack
  match stack with
  | [] => intro h _; exact absurd rfl h
  | [x] =>
    intro _ hgood heq
    obtain ⟨_, hx⟩ := hgood x (List.mem_singleton_self x)
    have heq2 : x = ['.', '/'] := heq
    rw [heq2] at hx
    simp at hx
  | x :: y :: rest =>
    intro _ hgood heq
    obtain ⟨hx0, hx⟩ := hgood x (List.mem_cons_self x (y :: rest))
    obtain ⟨hy0, _⟩ := hgood y (List.mem_cons_of_mem x (List.mem_cons_self y rest))
    have heq2 : x ++ '/' :: joinSlash (y :: rest) = ['.', '/'] := heq
    cases x with
    | nil => exact hx0 rfl
    | cons a x2 =>
      simp only [List.cons_append, List.cons.injEq] at heq2
      obtain ⟨ha, htail⟩ := heq2
      cases x2 with
      | nil =>
        simp only [List.nil_append, List.cons.injEq] at htail
        exact joinSlash_cons_ne_nil y rest hy0 htail.2
      | cons b x3 =>
        simp only [List.cons_append, List.cons.injEq] at htail
        obtain ⟨hb, _⟩ := htail
        exact hx (by simp [hb])

theorem goAssemble_nil (rooted : Bool) :
    goAssemble rooted [] = if rooted then ['/'] else ['.'] := by
  cases rooted <;> rfl

theorem goAssemble_cons (rooted : Bool) (g : List Char) (gs : List (List Char)) :
    goAssemble rooted (g :: gs) =
      if rooted then '/' :: joinSlash (g :: gs) else joinSlash (g :: gs) := by
  cases rooted <;> rfl

theorem goCleanList_ne_dotslash : ∀ cs : List Char, goCleanList cs ≠ ['.', '/'] := by
  intro cs
  cases cs with
  | nil => simp [goCleanList]
  | cons c rest =>
    have hgroups : ∀ e ∈ splitSlash (c :: rest), '/' ∉ e := by
      intro e he
      rcases List.mem_cons.mp he with h1 | h2
      · exact h1 ▸ (splitSlashAux_no_slash (c :: rest)).1
      · exact (splitSlashAux_no_slash (c :: rest)).2 e h2
    have hstep : goCleanList (c :: rest) =
        goAssemble (c == '/') (cleanStack (c == '/') [] (splitSlash (c :: rest))) := rfl
    rw [hstep]
    cases hstack : cleanStack (c == '/') [] (splitSlash (c :: rest)) with
    | nil =>
      rw [goAssemble_nil]
      cases c == '/' <;> simp
    | cons g gs =>
      have hgood : ∀ e ∈ cleanStack (c == '/') [] (splitSlash (c :: rest)),
          e ≠ [] ∧ '/' ∉ e :=
        cleanStack_good (c == '/') (splitSlash (c :: rest)) hgroups [] (by simp)
      rw [hstack] at hgood
      rw [goAssemble_cons]
      cases c == '/' with
      | true =>
        simp only [if_pos]
        intro h
        simp at h
      | false =>
        simp only [Bool.false_eq_true, if_false]
        exact joinSlash_ne_dotslash (g :: gs) (by simp) hgood

theorem goClean_ne_dotslash (s : String) : goClean s ≠ "./" := by
  intro h
  exact goCleanList_ne_dotslash s.data (congrArg String.data h)

theorem append_ne_empty_left (a b : String) (ha : a ≠ "") : a ++ b ≠ "" := by
  intro h
  apply ha
  have h2 : a.data ++ b.data = [] := by
    rw [← String.data_append]
    exact congrArg String.data h
  have h3 : a.data = [] := (List.append_eq_nil.mp h2).1
  cases a
  simp at h3
  rw [h3]

theorem goPathJoin_eq (a b : String) :
    goPathJoin a b =
      if a = "" then (if b = "" then "" else goClean b) else goClean (a ++ "/" ++ b) := by
  unfold goPathJoin goJoin
  simp only [List.foldl, if_true]
  by_cases ha : a = ""
  · subst ha
    simp
  · have hbuf : a ++ "/" ++ b ≠ "" :=
      append_ne_empty_left (a ++ "/") b (append_ne_empty_left a "/" ha)
    rw [if_neg ha, if_neg ha, if_neg hbuf]

/-- Joining never yields the bare `"./"`: only the synthetic root carries
that logical path. -/
theorem goPathJoin_ne_dotslash (a b : String) : goPathJoin a b ≠ "./" := by
  rw [goPathJoin_eq]
  by_cases ha : a = ""
  · rw [if_pos ha]
    by_cases hb : b = ""
    · rw [if_pos hb]
      decide
    · rw [if_neg hb]
      exact goClean_ne_dotslash b
  · rw [if_neg ha]
    exact goClean_ne_dotslash (a ++ "/" ++ b)

theorem string_eq_of_data (s t : String) (h : s.data = t.data) : s = t := by
  cases s
  cases t
  exact congrArg String.mk h

theorem string_mk_data (s : String) : String.mk s.data = s := by
  cases s
  rfl

theorem slashJoin_data : ∀ names : List String,
    (slashJoin names).data = joinSlash (names.map String.data)
  | [] => rfl
  | [n] => rfl
  | n :: y :: rest => by
    have ih := slashJoin_data (y :: rest)
    show (n ++ "/" ++ slashJoin (y :: rest)).data =
      joinSlash (n.data :: y.data :: rest.map String.data)
    rw [String.data_append, String.data_append, ih]
    show n.data ++ ['/'] ++ joinSlash (y.data :: rest.map String.data) = _
    rw [List.append_assoc]
    rfl

theorem splitSlash_of_no_slash (cs : List Char) (h : '/' ∉ cs) : splitSlash cs = [cs] := by
  unfold splitSlash
  rw [splitSlashAux_of_no_slash cs h]

theorem splitSlash_joinSlash : ∀ names : List (List Char), names ≠ [] →
    (∀ m ∈ names, '/' ∉ m) → ∀ ys : List Char,
      splitSlash (joinSlash names ++ '/' :: ys) = names ++ splitSlash ys
  | [] => fun h => absurd rfl h
  | [x] => fun _ hm ys => by
    have hx : '/' ∉ x := hm x (List.mem_singleton_self x)
    show splitSlash (x ++ '/' :: ys) = [x] ++ splitSlash ys
    unfold splitSlash
    rw [splitSlashAux_append x hx ys]
    rfl
  | x :: y :: rest => fun _ hm ys => by
    have hx : '/' ∉ x := hm x (List.mem_cons_self x (y :: rest))
    have hrest : ∀ m ∈ y :: rest, '/' ∉ m :=
      fun m hmem => hm m (List.mem_cons_of_mem x hmem)
    have ih := splitSlash_joinSlash (y :: rest) (by simp) hrest ys
    have hshape : joinSlash (x :: y :: rest) ++ '/' :: ys =
        x ++ '/' :: (joinSlash (y :: rest) ++ '/' :: ys) := by
      show (x ++ '/' :: joinSlash (y :: rest)) ++ '/' :: ys = _
      simp
    rw [hshape]
    unfold splitSlash at ih ⊢
    rw [splitSlashAux_append x hx (joinSlash (y :: rest) ++ '/' :: ys)]
    have h1 : (splitSlashAux (joinSlash (y :: rest) ++ '/' :: ys)).1 = y ∧
        (splitSlashAux (joinSlash (y :: rest) ++ '/' :: ys)).2 =
          rest ++ (splitSlashAux ys).1 :: (splitSlashAux ys).2 := by
      exact ⟨(List.cons.inj ih).1, (List.cons.inj ih).2⟩
    rw [h1.1, h1.2]
    rfl

theorem joinSlash_head : ∀ (y : List Char) (rest : List (List Char)),
    ∃ R, joinSlash (y :: rest) = y ++ R := by
  intro y rest
  cases rest with
  | nil => exact ⟨[], by simp [joinSlash]⟩
  | cons z r2 => exact ⟨'/' :: joinSlash (z :: r2), rfl⟩

theorem goPathJoin_root_clean (n : String) (hn : cleanName n) : goPathJoin "./" n = n := by
  obtain ⟨hn0, hn1, hn2, hn3⟩ := hn
  rw [goPathJoin_eq, if_neg (by decide : ¬("./" : String) = "")]
  have hdata : ("./" ++ "/" ++ n).data = '.' :: '/' :: '/' :: n.data := by
    rw [String.data_append, String.data_append]
    rfl
  have hclean : goClean ("./" ++ "/" ++ n) = String.mk (goCleanList ('.' :: '/' :: '/' :: n.data)) := by
    unfold goClean
    rw [hdata]
  rw [hclean]
  have hsplit : splitSlash ('.' :: '/' :: '/' :: n.data) = [['.'], [], n.data] := by
    unfold splitSlash
    have h1 : splitSlashAux ('.' :: '/' :: '/' :: n.data) = (['.'], [[], n.data]) := by
      rw [show ('.' :: '/' :: '/' :: n.data) = ['.'] ++ '/' :: ('/' :: n.data) from rfl]
      rw [splitSlashAux_append ['.'] (by simp) ('/' :: n.data)]
      rw [show splitSlashAux ('/' :: n.data) =
        ([], (splitSlashAux n.data).1 :: (splitSlashAux n.data).2) from rfl]
      rw [splitSlashAux_of_no_slash n.data hn3]
    rw [h1]
  have hstep : goCleanList ('.' :: '/' :: '/' :: n.data) =
      goAssemble false (cleanStack false [] (splitSlash ('.' :: '/' :: '/' :: n.data))) := rfl
  rw [hstep, hsplit]
  rw [cleanStack_cons, if_pos (Or.inr rfl)]
  rw [cleanStack_cons, if_pos (Or.inl rfl)]
  rw [cleanStack_cons, if_neg (not_or.mpr ⟨hn0, hn1⟩), if_neg hn2]
  rw [cleanStack_nil]
  show String.mk (joinSlash [n.data]) = n
  rw [show joinSlash [n.data] = n.data from rfl, string_mk_data n]

theorem goPathJoin_slashJoin_clean (names : List String) (n : String) (h0 : names ≠ [])
    (hm : ∀ m ∈ names, cleanName m) (hn : cleanName n) :
    goPathJoin (slashJoin names) n = slashJoin (names ++ [n]) := by
  obtain ⟨m0, names1, rfl⟩ : ∃ m0 names1, names = m0 :: names1 := by
    cases names with
    | nil => exact absurd rfl h0
    | cons a b => exact ⟨a, b, rfl⟩
  have hm0 := hm m0 (List.mem_cons_self m0 names1)
  have hsj_ne : slashJoin (m0 :: names1) ≠ "" := by
    intro h
    obtain ⟨R, hR⟩ := joinSlash_head m0.data (names1.map String.data)
    have hdata : (slashJoin (m0 :: names1)).data = m0.data ++ R := by
      rw [slashJoin_data]
      exact hR
    rw [h] at hdata
    have : m0.data = [] := (List.append_eq_nil.mp hdata.symm).1
    exact hm0.1 this
  rw [goPathJoin_eq, if_neg hsj_ne]
  have hmap_noslash : ∀ m ∈ (m0 :: names1).map String.data, '/' ∉ m := by
    intro m hmem
    obtain ⟨s, hs, rfl⟩ := List.mem_map.mp hmem
    exact (hm s hs).2.2.2
  have hdata : (slashJoin (m0 :: names1) ++ "/" ++ n).data =
      joinSlash ((m0 :: names1).map String.data) ++ '/' :: n.data := by
    rw [String.data_append, String.data_append, slashJoin_data]
    simp
  have hsplit : splitSlash ((slashJoin (m0 :: names1) ++ "/" ++ n).data) =
      (m0 :: names1).map String.data ++ [n.data] := by
    rw [hdata, splitSlash_joinSlash ((m0 :: names1).map String.data) (by simp) hmap_noslash,
      splitSlash_of_no_slash n.data hn.2.2.2]
  obtain ⟨c0, m0tl, hm0d⟩ : ∃ c0 tl, m0.data = c0 :: tl := by
    cases hd : m0.data with
    | nil => exact absurd hd hm0.1
    | cons a b => exact ⟨a, b, rfl⟩
  have hc0 : c0 ≠ '/' := by
    intro h
    exact hm0.2.2.2 (hm0d ▸ h ▸ List.mem_cons_self c0 m0tl)
  obtain ⟨R, hR⟩ := joinSlash_head m0.data (names1.map String.data)
  have hcs : (slashJoin (m0 :: names1) ++ "/" ++ n).data =
      c0 :: (m0tl ++ R ++ '/' :: n.data) := by
    rw [hdata]
    simp only [List.map_cons]
    rw [hR, hm0d]
    simp
  have hplain : ∀ e ∈ (m0 :: names1).map String.data ++ [n.data], plainElem e := by
    intro e he
    rcases List.mem_append.mp he with h1 | h2
    · obtain ⟨s, hs, rfl⟩ := List.mem_map.mp h1
      exact ⟨(hm s hs).1, (hm s hs).2.1, (hm s hs).2.2.1⟩
    · rw [List.mem_singleton.mp h2]
      exact ⟨hn.1, hn.2.1, hn.2.2.1⟩
  have hassemble : goCleanList ((slashJoin (m0 :: names1) ++ "/" ++ n).data) =
      goAssemble (c0 == '/')
        (cleanStack (c0 == '/') [] (splitSlash ((slashJoin (m0 :: names1) ++ "/" ++ n).data))) := by
    rw [hcs]
    rfl
  have hrooted : (c0 == '/') = false := by
    simp [hc0]
  have hstack := cleanStack_all_plain false ((m0 :: names1).map String.data ++ [n.data]) hplain []
  unfold goClean
  rw [hassemble, hrooted, hsplit, hstack]
  have hnonempty : ([] : List (List Char)).reverse ++ ((m0 :: names1).map String.data ++ [n.data]) =
      m0.data :: (names1.map String.data ++ [n.data]) := by simp
  rw [hnonempty, goAssemble_cons false]
  simp only [Bool.false_eq_true, if_false]
  apply string_eq_of_data
  show joinSlash (m0.data :: (names1.map String.data ++ [n.data])) =
    (slashJoin ((m0 :: names1) ++ [n])).data
  rw [slashJoin_data]
  simp

@[simp] theorem mkStub_LogicalPath (parent d : Component) :
    (mkStub parent d).LogicalPath = goPathJoin parent.LogicalPath d.Name := by
  simp [mkStub]

/-- Claim C10: every enqueued stub's `LogicalPath` is `path.Join` of its
parent's `LogicalPath` with the declaration's `Name`; the join normalizes
away the root's `"./"`, so a root child with a well-formed name gets the
bare name, deeper nodes get slash-joined name sequences, and no join result
is ever `"./"` — the synthetic root is the only stub with logical path
`"./"`. -/
theorem stub_logicalPath_join (parent d : Component) (decls : List Component) (s : Component)
    (names : List String) (n a b : String) :
    ((mkStub parent d).LogicalPath = goPathJoin parent.LogicalPath d.Name) ∧
    (s ∈ subStubs parent decls → ∃ d2, d2 ∈ decls ∧ d2.Source ≠ "" ∧
      s.LogicalPath = goPathJoin parent.LogicalPath d2.Name) ∧
    (cleanName n → goPathJoin "./" n = n) ∧
    (names ≠ [] → (∀ m ∈ names, cleanName m) → cleanName n →
      goPathJoin (slashJoin names) n = slashJoin (names ++ [n])) ∧
    ((rootStub a).LogicalPath = "./") ∧
    (goPathJoin a b ≠ "./") ∧
    (s ∈ subStubs parent decls → s.LogicalPath ≠ "./") := by
  refine ⟨by simp, fun hs => ?_, goPathJoin_root_clean n,
    fun h1 h2 h3 => goPathJoin_slashJoin_clean names n h1 h2 h3, by simp,
    goPathJoin_ne_dotslash a b, fun hs => ?_⟩
  · obtain ⟨d2, hmem, hsrc, rfl⟩ := subStubs_mem parent decls s hs
    exact ⟨d2, hmem, hsrc, by simp⟩
  · obtain ⟨d2, hmem, hsrc, rfl⟩ := subStubs_mem parent decls s hs
    simp only [mkStub_LogicalPath]
    exact goPathJoin_ne_dotslash parent.LogicalPath d2.Name

/-- Witness for C10 at concrete names and stubs. -/
theorem stub_logicalPath_join_witness :
    cleanName "web" ∧ (["a", "b"] : List String) ≠ [] ∧
      (∀ m ∈ (["a", "b"] : List String), cleanName m) ∧
      goPathJoin "./" "web" = "web" ∧
      goPathJoin (slashJoin ["a", "b"]) "web" = slashJoin (["a", "b"] ++ ["web"]) ∧
      mkStub dupRootDone dupDecl ∈ subStubs dupRootDone [dupDecl, dupDecl] ∧
      (mkStub dupRootDone dupDecl).LogicalPath ≠ "./" :=
  ⟨by decide, by decide, by decide,
   (stub_logicalPath_join dupRootDone dupDecl [dupDecl, dupDecl]
     (mkStub dupRootDone dupDecl) ["a", "b"] "web" "x" "y").2.2.1 (by decide),
   (stub_logicalPath_join dupRootDone dupDecl [dupDecl, dupDecl]
     (mkStub dupRootDone dupDecl) ["a", "b"] "web" "x" "y").2.2.2.1 (by decide) (by decide)
     (by decide),
   List.mem_cons_self _ _,
   (stub_logicalPath_join dupRootDone dupDecl [dupDecl, dupDecl]
     (mkStub dupRootDone dupDecl) ["a", "b"] "web" "x" "y").2.2.2.2.2.2
     (List.mem_cons_self _ _)⟩
